import Mathlib

/-!
Verification development for the PDF form-filler service.

The definitions below are a shallow embedding of the repository's
JavaScript sources:

* `backend/services/textParser.js` — free-text parsing (`parseText`),
* `backend/services/csvParser.js` — CSV parsing and row-to-field-data
  conversion (`parseCSV`, `convertRowToFieldData`),
* `backend/services/pdfParser.js` — the document content extractor
  (`extractPDFData`, `parsePDF`, `convertExtractedDataToRows`),
* `backend/services/datalabService.js` — the external fill client
  (`pollAndDownloadPDF`),
* `backend/routes/formFilling.js` — the fill-form row selection.

Strings are modelled as `List Char` (`Str`), JavaScript objects as
insertion-ordered association lists (`JsObj`) with JavaScript property
assignment semantics (`upsert`).  JavaScript regular expressions used by
the parsers are translated into explicit scanning functions whose
backtracking behaviour follows the ECMAScript semantics of the concrete
patterns in the source; the comments on each function name the pattern it
implements.  All definitions are executable.
-/

/-- Strings as lists of characters (the shallow embedding works on
character lists so that the parsing functions can be reasoned about by
structural induction). -/
abbrev Str := List Char

/-- JavaScript whitespace as used by `String.prototype.trim` and the
regex class `\s`, restricted to the ASCII range (the repository's data is
ASCII): space, tab, newline, carriage return, vertical tab, form feed. -/
def jsIsWs (c : Char) : Bool :=
  c == ' ' || c == '\t' || c == '\n' || c == '\r' || c == '\x0b' || c == '\x0c'

/-- Characters matched by the regex metacharacter `.` (any character
except a line terminator). -/
def dotOk (c : Char) : Bool := !(c == '\n' || c == '\r')

/-- Remove leading JavaScript whitespace. -/
def ltrim (s : Str) : Str := s.dropWhile jsIsWs

/-- Remove trailing JavaScript whitespace. -/
def rtrim : Str → Str
  | [] => []
  | x :: xs =>
    match rtrim xs with
    | [] => if jsIsWs x then [] else [x]
    | r => x :: r

/-- `String.prototype.trim`: remove whitespace from both ends. -/
def jsTrim (s : Str) : Str := ltrim (rtrim s)

/-- `text.split(c)` for a single-character separator: every occurrence
of `c` separates fields; the result is never empty. -/
def splitOnChar (c : Char) : Str → List Str
  | [] => [[]]
  | x :: xs =>
    if x = c then [] :: splitOnChar c xs
    else
      match splitOnChar c xs with
      | [] => [[x]]
      | r :: rs => (x :: r) :: rs

/-- Insertion-ordered association list: the model of a JavaScript
object (string keys, insertion order; assigning an existing key keeps
its position). -/
abbrev JsObj := List (Str × Str)

/-- JavaScript property assignment `m[k] = v`: overwrite in place if the
key exists, else append. -/
def upsert {α : Type} (m : List (Str × α)) (k : Str) (v : α) : List (Str × α) :=
  if m.any (fun p => p.1 = k) then
    m.map (fun p => if p.1 = k then (k, v) else p)
  else
    m ++ [(k, v)]

/-- JavaScript property read `m[k]`: the value of the first (unique)
entry with key `k`. -/
def alookup {α : Type} (k : Str) : List (Str × α) → Option α
  | [] => none
  | p :: ps => if p.1 = k then some p.2 else alookup k ps

/-- `Object.keys m` in insertion order. -/
def akeys {α : Type} (m : List (Str × α)) : List Str := m.map (fun p => p.1)

/-- `Object.assign(m, kvs)`: upsert every entry of `kvs`, in order. -/
def amerge (m : JsObj) (kvs : JsObj) : JsObj :=
  kvs.foldl (fun acc p => upsert acc p.1 p.2) m

/-- The uniform `{headers, rows, rowCount}` shape produced by all three
parsers (csvParser.js, textParser.js, pdfParser.js). -/
structure TabularResult where
  headers : List Str
  rows : List JsObj
  rowCount : Nat
deriving DecidableEq, Repr

/-- Equality of fallible results is decidable (used to evaluate the
model on concrete inputs). -/
instance {ε α : Type} [DecidableEq ε] [DecidableEq α] : DecidableEq (Except ε α)
  | .error e, .error f =>
    if h : e = f then .isTrue (by rw [h]) else .isFalse (fun hc => h (by cases hc; rfl))
  | .error _, .ok _ => .isFalse (fun hc => Except.noConfusion hc)
  | .ok _, .error _ => .isFalse (fun hc => Except.noConfusion hc)
  | .ok a, .ok b =>
    if h : a = b then .isTrue (by rw [h]) else .isFalse (fun hc => h (by cases hc; rfl))

/-! ### Regex matchers of textParser.js

`parseText` tries, per line, `/^(.+?)\s*SEP\s*(.+)$/` for the separators
`:`, `=`, `-`, `|`.  `sepScan` implements this pattern: the lazy `(.+?)`
together with `\s*` picks the first separator occurrence whose preceding
text is non-empty after stripping trailing whitespace, whose stripped
preceding text contains no line terminator (`.` does not match them),
and which is followed by at least one more character; the value is the
remainder after the greedy `\s*`.  The branch of `sepValue` for an
all-whitespace remainder reflects the backtracking of `\s*(.+)$`; it is
unreachable from the call sites, which match trimmed lines (a trimmed
line never ends in whitespace). -/

/-- The `\s*(.+)$` part after the separator: strip leading whitespace
greedily, backtracking to keep at least one character. -/
def sepValue (xs : Str) : Str :=
  match ltrim xs with
  | [] => xs.drop (xs.length - 1)
  | t => t

/-- Scanner for `/^(.+?)\s*SEP\s*(.+)$/` (see above); `pre` holds the
characters already passed over. -/
def sepScan (c : Char) : Str → Str → Option (Str × Str)
  | _, [] => none
  | pre, x :: xs =>
    if x = c ∧ rtrim pre ≠ [] ∧ (rtrim pre).all dotOk ∧ xs ≠ [] ∧
        sepValue xs ≠ [] ∧ (sepValue xs).all dotOk then
      some (rtrim pre, sepValue xs)
    else
      sepScan c (pre ++ [x]) xs

/-- `line.match(/^(.+?)\s*SEP\s*(.+)$/)` as key/value groups. -/
def reSepMatch (c : Char) (s : Str) : Option (Str × Str) := sepScan c [] s

/-! ### Minimal JSON object parser

Models `JSON.parse` restricted to flat objects with string keys and
string values (no escape sequences): exactly the shape the text parser's
pattern 5 and whole-document merge consume in this repository.  Inputs
outside this fragment are conservatively rejected (`none`). -/

/-- JSON insignificant whitespace. -/
def jsonWs (c : Char) : Bool := c == ' ' || c == '\t' || c == '\n' || c == '\r'

/-- Parse the remainder of a JSON string after the opening quote;
returns content and rest.  Escapes and control characters are rejected. -/
def jsonStrGo : Str → Option (Str × Str)
  | [] => none
  | c :: rest =>
    if c = '"' then some ([], rest)
    else if c = '\\' ∨ c.toNat < 32 then none
    else
      match jsonStrGo rest with
      | some (s, r) => some (c :: s, r)
      | none => none

/-- Parse one `"key" : "value"` member; returns the pair and the rest. -/
def jsonPair (s : Str) : Option ((Str × Str) × Str) :=
  match s with
  | '"' :: r =>
    match jsonStrGo r with
    | some (k, r2) =>
      match r2.dropWhile jsonWs with
      | ':' :: r3 =>
        match r3.dropWhile jsonWs with
        | '"' :: r4 =>
          match jsonStrGo r4 with
          | some (v, r5) => some ((k, v), r5)
          | none => none
        | _ => none
      | _ => none
    | none => none
  | _ => none

/-- Parse the members of an object body (after `\x7b` and leading
whitespace), accumulating with JavaScript duplicate-key semantics (last
value wins, first position kept). -/
def jsonMembers : Nat → Str → JsObj → Option JsObj
  | 0, _, _ => none
  | fuel + 1, s, acc =>
    match jsonPair s with
    | none => none
    | some (kv, rest) =>
      let acc' := upsert acc kv.1 kv.2
      match rest.dropWhile jsonWs with
      | ',' :: r2 => jsonMembers fuel (r2.dropWhile jsonWs) acc'
      | '}' :: tail => if tail.dropWhile jsonWs = [] then some acc' else none
      | _ => none

/-- `JSON.parse` on a flat string-to-string object (see section note). -/
def jsonParse (s : Str) : Option JsObj :=
  match s.dropWhile jsonWs with
  | '{' :: rest =>
    match rest.dropWhile jsonWs with
    | '}' :: tail => if tail.dropWhile jsonWs = [] then some [] else none
    | r1 => jsonMembers (s.length + 1) r1 []
  | _ => none

/-! ### parseText (textParser.js lines 415-518)

Per (trimmed, non-blank) line the patterns are tried in source order:
colon, equals, dash, pipe, single-line JSON object, tab-separated pair;
the first matching pattern consumes the line.  After the line pass, if
the whole trimmed input starts with `\x7b` and ends with `\x7d`, it is
parsed as JSON and merged over the accumulated fields.  Each line's
contribution is independent of the fields accumulated so far, so it is
factored into a pure `LineAction` applied by `applyAction`. -/

/-- What one line contributes to the accumulated fields. -/
inductive LineAction where
  | none
  | put (k v : Str)
  | merge (kvs : JsObj)
deriving DecidableEq, Repr

/-- Pattern 6: tab-separated `Key\tValue` (split on tab, trim, drop
empties, accept exactly two parts). -/
def lineActionTab (t : Str) : LineAction :=
  if '\t' ∈ t then
    match ((splitOnChar '\t' t).map jsTrim).filter (fun p => p ≠ []) with
    | [a, b] => .put a b
    | _ => .none
  else .none

/-- Pattern 5: a single-line JSON object `\x7b...\x7d`, merged via
`Object.assign`; invalid JSON falls through to pattern 6. -/
def lineActionJson (t : Str) : LineAction :=
  if t.head? = some '{' ∧ t.getLast? = some '}' then
    match jsonParse t with
    | some kvs => .merge kvs
    | Option.none => lineActionTab t
  else lineActionTab t

/-- Pattern 4: `/^(.+?)\s*\|\s*(.+)$/`. -/
def lineActionPipe (t : Str) : LineAction :=
  match reSepMatch '|' t with
  | some (k, v) => if k ≠ [] ∧ v ≠ [] then .put (jsTrim k) (jsTrim v) else lineActionJson t
  | Option.none => lineActionJson t

/-- Pattern 3: `/^(.+?)\s*-\s*(.+)$/`. -/
def lineActionDash (t : Str) : LineAction :=
  match reSepMatch '-' t with
  | some (k, v) => if k ≠ [] ∧ v ≠ [] then .put (jsTrim k) (jsTrim v) else lineActionPipe t
  | Option.none => lineActionPipe t

/-- Pattern 2: `/^(.+?)\s*=\s*(.+)$/`. -/
def lineActionEq (t : Str) : LineAction :=
  match reSepMatch '=' t with
  | some (k, v) => if k ≠ [] ∧ v ≠ [] then .put (jsTrim k) (jsTrim v) else lineActionDash t
  | Option.none => lineActionDash t

/-- Pattern 1: `/^(.+?)\s*:\s*(.+)$/`, tried first. -/
def lineActionColon (t : Str) : LineAction :=
  match reSepMatch ':' t with
  | some (k, v) => if k ≠ [] ∧ v ≠ [] then .put (jsTrim k) (jsTrim v) else lineActionEq t
  | Option.none => lineActionEq t

/-- The decision for one raw line: trim it, skip if blank, else try the
six patterns in order. -/
def lineAction (line : Str) : LineAction :=
  let t := jsTrim line
  if t = [] then .none else lineActionColon t

/-- Apply a line's contribution to the accumulated fields. -/
def applyAction (fs : JsObj) : LineAction → JsObj
  | .none => fs
  | .put k v => upsert fs k v
  | .merge kvs => amerge fs kvs

/-- One step of the line loop of `parseText`. -/
def parseLine (fs : JsObj) (line : Str) : JsObj := applyAction fs (lineAction line)

/-- The accumulated field mapping of `parseText`: the per-line pass over
`text.split('\n')`, then the whole-document JSON merge. -/
def parseTextCore (s : Str) : JsObj :=
  let fs := (splitOnChar '\n' s).foldl parseLine []
  let tt := jsTrim s
  if tt.head? = some '{' ∧ tt.getLast? = some '}' then
    match jsonParse tt with
    | some kvs => amerge fs kvs
    | none => fs
  else fs

/-- `parseText` shaped as its returned `{headers, rows, rowCount}`:
headers are the field keys, the single row is the field mapping. -/
def parseTextTR (s : Str) : TabularResult :=
  let fs := parseTextCore s
  ⟨akeys fs, [fs], 1⟩

/-- `parseText` on a Lean string. -/
def parseText (text : String) : TabularResult := parseTextTR text.data

/-- Join lines with a newline (inverse of `splitOnChar '\n'` on
newline-free lines). -/
def joinLines : List Str → Str
  | [] => []
  | [l] => l
  | l :: ls => l ++ '\n' :: joinLines ls

/-- The canonical serialization named by the idempotence property: each
field as a `Key: Value` line, lines joined by newlines. -/
def serializeFields (fs : JsObj) : Str :=
  joinLines (fs.map (fun p => p.1 ++ ':' :: ' ' :: p.2))

/-! ### parseCSV (csvParser.js lines 7-34)

`parseCSV` feeds the file to `Papa.parse(content, {header: true,
skipEmptyLines: true})` and rejects the result if the library reported
any error; on success it returns `{headers: meta.fields, rows: data,
rowCount: data.length}`.  The delimited-text decoding itself is the
external library's: it is modelled here for plain comma-separated input
without quoted fields, per the library's documented header mode — first
non-empty line gives the field names, every record becomes an object
keyed by them, and a record whose field count differs from the header's
produces a FieldMismatch error (which `parseCSV` turns into rejection). -/

/-- Decode the data records: each line must have exactly as many cells
as there are headers, else the parse is rejected. -/
def csvRows (headers : List Str) : List Str → Except String (List JsObj)
  | [] => .ok []
  | l :: ls =>
    let cells := splitOnChar ',' l
    if cells.length = headers.length then
      match csvRows headers ls with
      | .ok rs => .ok ((headers.zip cells).foldl (fun m p => upsert m p.1 p.2) [] :: rs)
      | .error e => .error e
    else
      .error "CSV parsing errors: FieldMismatch"

/-- `parseCSV` (see section note): empty lines skipped, first line the
header row. -/
def parseCSV (content : String) : Except String TabularResult :=
  match (splitOnChar '\n' content.data).filter (fun l => l ≠ []) with
  | [] => .ok ⟨[], [], 0⟩
  | hl :: dls =>
    match csvRows (splitOnChar ',' hl) dls with
    | .ok rows => .ok ⟨splitOnChar ',' hl, rows, rows.length⟩
    | .error e => .error e

/-! ### convertRowToFieldData (csvParser.js lines 40-104) -/

/-- ASCII `String.prototype.toLowerCase`. -/
def jsToLower (c : Char) : Char :=
  if 65 ≤ c.toNat ∧ c.toNat ≤ 90 then Char.ofNat (c.toNat + 32) else c

/-- `replace(/\s+/g, '_')`: every maximal run of whitespace becomes one
underscore (the flag records whether the previous character was part of
a run already replaced). -/
def collapseWsGo : Bool → Str → Str
  | _, [] => []
  | inRun, x :: xs =>
    if jsIsWs x then
      if inRun then collapseWsGo true xs else '_' :: collapseWsGo true xs
    else
      x :: collapseWsGo false xs

/-- `key.toLowerCase().replace(/\s+/g, '_')`. -/
def normalizeKey (k : Str) : Str := collapseWsGo false (k.map jsToLower)

/-- One `{value, description}` field entry of the Datalab payload. -/
structure FieldDescriptor where
  value : Str
  description : Str
deriving DecidableEq, Repr

/-- The static `defaultMappings` table of `convertRowToFieldData`. -/
def defaultMappings : List (Str × Str) :=
  [("title".data, "Title or Company Name".data),
   ("company_name".data, "Company Name".data),
   ("company".data, "Company Name".data),
   ("surname".data, "Surname or Last Name".data),
   ("last_name".data, "Surname or Last Name".data),
   ("lastname".data, "Surname or Last Name".data),
   ("name".data, "First Name".data),
   ("first_name".data, "First Name".data),
   ("firstname".data, "First Name".data),
   ("street".data, "Street Address".data),
   ("address".data, "Street Address".data),
   ("address_street".data, "Street Address".data),
   ("number".data, "Street Number".data),
   ("street_number".data, "Street Number".data),
   ("postcode".data, "Postal Code".data),
   ("postal_code".data, "Postal Code".data),
   ("zip".data, "Postal Code".data),
   ("zip_code".data, "Postal Code".data),
   ("town".data, "Town or City".data),
   ("city".data, "Town or City".data),
   ("town_city".data, "Town or City".data),
   ("country".data, "Country".data),
   ("account_holder".data, "Account Holder Name".data),
   ("iban".data, "IBAN Number".data),
   ("swift".data, "SWIFT Code (BIC)".data),
   ("swift_code".data, "SWIFT Code (BIC)".data),
   ("bic".data, "SWIFT Code (BIC)".data),
   ("currency".data, "Currency".data),
   ("bank_account_number".data, "Bank Account Number".data),
   ("account_number".data, "Bank Account Number".data),
   ("routing_number".data, "Routing Number (US banks)".data),
   ("bank_name".data, "Bank Name".data),
   ("bank_street".data, "Bank Street Address".data),
   ("bank_address".data, "Bank Street Address".data),
   ("bank_number".data, "Bank Street Number".data),
   ("bank_postcode".data, "Bank Postal Code".data),
   ("bank_zip".data, "Bank Postal Code".data),
   ("bank_town".data, "Bank Town or City".data),
   ("bank_city".data, "Bank Town or City".data),
   ("bank_country".data, "Bank Country".data),
   ("swift_correspondent".data, "SWIFT Correspondent".data)]

/-- `convertRowToFieldData(row, columnMappings)`: for every entry whose
value is truthy and trims non-empty, emit under the original key a
`{value: trimmed, description}` pair, where the description is
`mappings[normalizedKey] || key` — the table entry for the normalized
key when that lookup is truthy (present and non-empty), else the
original key. -/
def convertRowToFieldData (row : JsObj) (columnMappings : Option (List (Str × Str))) :
    List (Str × FieldDescriptor) :=
  let mappings := columnMappings.getD defaultMappings
  row.foldl
    (fun fieldData p =>
      if p.2 ≠ [] ∧ jsTrim p.2 ≠ [] then
        let normalizedKey := normalizeKey p.1
        let description :=
          match alookup normalizedKey mappings with
          | some d => if d = [] then p.1 else d
          | none => p.1
        upsert fieldData p.1 ⟨jsTrim p.2, description⟩
      else fieldData)
    []

/-- The description rule of `convertRowToFieldData` as the amended claim
states it: the mapping-table entry for the normalized key, falling back
to the original key when the key is unmatched or the matched entry is
empty. -/
def mappingDescription (columnMappings : Option (List (Str × Str))) (k : Str) : Str :=
  match alookup (normalizeKey k) (columnMappings.getD defaultMappings) with
  | some d => if d = [] then k else d
  | none => k

/-! ### parseFieldsFromText (pdfParser.js lines 285-332)

Method 3 of the extractor matches each non-empty trimmed line against,
in order, `/^(.+?):\s*(.+)$/`, `/^(.+?)\s{2,}(.+)$/` and
`/^([A-Z][A-Za-z\s]+)\s+(.+)$/`, taking the first pattern that matches;
if no line produced a field, a global scan with
`/\b([A-Z][a-z]+(?:\s+[A-Z][a-z]+)*)\s*[:\-]?\s*([A-Z0-9][A-Za-z0-9\s,.-]+)/g`
collects up to 50 pairs.  The scanners below spell out the ECMAScript
backtracking of these concrete patterns; the branches that only matter
for lines ending in whitespace are unreachable, because the lines are
trimmed before matching. -/

/-- Scanner for `/^(.+?)SEP\s*(.+)$/` (no whitespace stripping before
the separator, unlike `sepScan`). -/
def sepScanRaw (c : Char) : Str → Str → Option (Str × Str)
  | _, [] => none
  | pre, x :: xs =>
    if x = c ∧ pre ≠ [] ∧ pre.all dotOk ∧ xs ≠ [] ∧
        sepValue xs ≠ [] ∧ (sepValue xs).all dotOk then
      some (pre, sepValue xs)
    else
      sepScanRaw c (pre ++ [x]) xs

/-- Scanner for `/^(.+?)\s{2,}(.+)$/`: the lazy group ends at the first
run of two or more whitespace characters; the greedy `\s{2,}` then
consumes the whole run. -/
def reP2go : Str → Str → Option (Str × Str)
  | _, [] => none
  | pre, x :: xs =>
    if pre ≠ [] ∧ jsIsWs x ∧ (xs.head?.any jsIsWs) then
      let after := (x :: xs).dropWhile jsIsWs
      if pre.all dotOk ∧ after ≠ [] ∧ after.all dotOk then some (pre, after) else none
    else
      reP2go (pre ++ [x]) xs

/-- `line.match(/^(.+?)\s{2,}(.+)$/)`. -/
def reP2 (s : Str) : Option (Str × Str) := reP2go [] s

/-- ASCII character classes of the extractor's regexes. -/
def isUpperAZ (c : Char) : Bool := 65 ≤ c.toNat && c.toNat ≤ 90

/-- Lowercase ASCII letter. -/
def isLowerAZ (c : Char) : Bool := 97 ≤ c.toNat && c.toNat ≤ 122

/-- ASCII letter. -/
def isAlphaAZ (c : Char) : Bool := isUpperAZ c || isLowerAZ c

/-- ASCII digit. -/
def isDigit09 (c : Char) : Bool := 48 ≤ c.toNat && c.toNat ≤ 57

/-- Candidate group ends for `/^([A-Z][A-Za-z\s]+)\s+(.+)$/`, tried from
the greedy maximum down: the group must end just before a whitespace
character inside the letters-and-whitespace prefix, and the remainder
after the whitespace run is the second group. -/
def reP3try (s : Str) : Nat → Option (Str × Str)
  | 0 => none
  | g + 1 =>
    if 2 ≤ g + 1 ∧ ((s.drop (g + 1)).head?.any jsIsWs) then
      let after := (s.drop (g + 1)).dropWhile jsIsWs
      if after ≠ [] ∧ after.all dotOk then some (s.take (g + 1), after)
      else reP3try s g
    else reP3try s g

/-- `line.match(/^([A-Z][A-Za-z\s]+)\s+(.+)$/)`. -/
def reP3 (s : Str) : Option (Str × Str) :=
  match s with
  | [] => none
  | x :: xs =>
    if isUpperAZ x then
      reP3try s (1 + (xs.takeWhile (fun c => isAlphaAZ c || jsIsWs c)).length)
    else none

/-- The three line patterns of `parseFieldsFromText`, first match wins
(the regex groups are non-empty whenever a pattern matches, so the
source's `match[1] && match[2]` truthiness test always passes). -/
def pftMatch (line : Str) : Option (Str × Str) :=
  match sepScanRaw ':' [] line with
  | some r => some r
  | none =>
    match reP2 line with
    | some r => some r
    | none => reP3 line

/-- One line of the structured pass: store the pair if the trimmed name
is longer than one character and the trimmed value non-empty; a line
whose first matching pattern fails this length check contributes
nothing (the source breaks out of the pattern loop either way). -/
def pftLine (fs : JsObj) (line : Str) : JsObj :=
  match pftMatch line with
  | some (k, v) =>
    let fieldName := jsTrim k
    let fieldValue := jsTrim v
    if 1 < fieldName.length ∧ 0 < fieldValue.length then upsert fs fieldName fieldValue
    else fs
  | none => fs

/-- Word characters for the `\b` boundary. -/
def isWordChar (c : Char) : Bool := isAlphaAZ c || isDigit09 c || c == '_'

/-- The value class `[A-Za-z0-9\s,.-]` of the fallback pattern. -/
def dpValueClass (c : Char) : Bool :=
  isAlphaAZ c || isDigit09 c || jsIsWs c || c == ',' || c == '.' || c == '-'

/-- `[A-Z][a-z]+` at position `p`: the end position of the word. -/
def dpWord (s : Str) (p : Nat) : Option Nat :=
  match s.drop p with
  | [] => none
  | x :: xs =>
    if isUpperAZ x then
      let r := (xs.takeWhile isLowerAZ).length
      if 0 < r then some (p + 1 + r) else none
    else none

/-- `(?:\s+[A-Z][a-z]+)*` after position `e`: the end positions of the
further capitalized words, in order. -/
def dpMoreWords (s : Str) : Nat → Nat → List Nat
  | 0, _ => []
  | fuel + 1, e =>
    let a := ((s.drop e).takeWhile jsIsWs).length
    if 0 < a then
      match dpWord s (e + a) with
      | some e2 => e2 :: dpMoreWords s fuel e2
      | none => []
    else []

/-- `[A-Z0-9][A-Za-z0-9\s,.-]+` at position `t`: the group text and its
end position. -/
def dpGroup2 (s : Str) (t : Nat) : Option (Str × Nat) :=
  match s.drop t with
  | [] => none
  | x :: xs =>
    if isUpperAZ x || isDigit09 x then
      let r := (xs.takeWhile dpValueClass).length
      if 0 < r then some ((s.drop t).take (1 + r), t + 1 + r) else none
    else none

/-- `\s*[:\-]?\s*` then the value group, after the first group ends at
`e`.  The optional separator is taken greedily when present; if the
value group then fails, no backtracking alternative can succeed (the
characters after the whitespace run match neither `[:\-]` nor
`[A-Z0-9]` in any other split), so the whole attempt fails. -/
def dpConnector (s : Str) (e : Nat) : Option (Str × Nat) :=
  let a := ((s.drop e).takeWhile jsIsWs).length
  match s.drop (e + a) with
  | x :: _ =>
    if x = ':' ∨ x = '-' then
      let b := ((s.drop (e + a + 1)).takeWhile jsIsWs).length
      dpGroup2 s (e + a + 1 + b)
    else dpGroup2 s (e + a)
  | [] => dpGroup2 s (e + a)

/-- Backtrack over the number of capitalized words, greedy first. -/
def dpTryEnds (s : Str) (p : Nat) : List Nat → Option (Str × Str × Nat)
  | [] => none
  | e :: rest =>
    match dpConnector s e with
    | some (g2, fin) => some ((s.drop p).take (e - p), g2, fin)
    | none => dpTryEnds s p rest

/-- One attempt of the fallback pattern at position `p` (with the `\b`
boundary check): the two groups and the match end. -/
def dpMatchAt (s : Str) (p : Nat) : Option (Str × Str × Nat) :=
  let boundary :=
    match p with
    | 0 => true
    | q + 1 => (s.drop q).head?.all (fun c => !isWordChar c)
  if boundary then
    match dpWord s p with
    | some e1 => dpTryEnds s p ((e1 :: dpMoreWords s s.length e1).reverse)
    | none => none
  else none

/-- The `dataPattern.exec` loop: leftmost match at or after the current
position, up to 50 stored pairs, skipping keys already stored with a
truthy value; `lastIndex` advances to each match end. -/
def dpScanGo (s : Str) : Nat → Nat → JsObj → Nat → JsObj
  | 0, _, fs, _ => fs
  | fuel + 1, p, fs, idx =>
    if 50 ≤ idx ∨ s.length < p then fs
    else
      match dpMatchAt s p with
      | some (g1, g2, fin) =>
        let key := jsTrim g1
        let value := jsTrim g2
        if key ≠ [] ∧ value ≠ [] ∧
            (match alookup key fs with | some v => v == [] | none => true : Bool) then
          dpScanGo s fuel fin (upsert fs key value) (idx + 1)
        else dpScanGo s fuel fin fs idx
      | none => dpScanGo s fuel (p + 1) fs idx

/-- `parseFieldsFromText(text)`: the per-line structured pass, then the
global fallback scan only when it produced nothing. -/
def parseFieldsFromText (text : Str) : JsObj :=
  let lines := ((splitOnChar '\n' text).map jsTrim).filter (fun l => 0 < l.length)
  let fields := lines.foldl pftLine []
  if fields.length = 0 then dpScanGo text (text.length + 2) 0 [] 0 else fields

/-! ### extractPDFData and parsePDF (pdfParser.js lines 17-404)

The document is modelled by what the three local extraction methods and
the remote OCR can observe of it: its form fields (name and typed
current value), the page text fragments `pdf2json` would report (already
URI-decoded; `none` models a parser error, which the source turns into
an empty result), the flattened text `pdf-parse` would report, and the
field mapping the remote Datalab OCR would detect.  File reading and
network transport are outside the model; their failure paths re-throw
and are not part of any claim below. -/

/-- A form field's typed current value, as read by pdf-lib. -/
inductive PDFFieldValue where
  | textField (s : Option Str)
  | checkBox (checked : Bool)
  | radioGroup (sel : Option Str)
  | dropdown (sel : Option (List Str))
  | otherField
deriving DecidableEq, Repr

/-- `selected.join(', ')`. -/
def joinCommaSpace : List Str → Str
  | [] => []
  | [x] => x
  | x :: xs => x ++ ',' :: ' ' :: joinCommaSpace xs

/-- The string value the source reads for each field type (text as-is,
checkbox as Yes/No, radio selection, dropdown selections joined by a
comma; an unrecognized field type keeps the empty default). -/
def formFieldValue : PDFFieldValue → Str
  | .textField s => s.getD []
  | .checkBox b => if b then "Yes".data else "No".data
  | .radioGroup s => s.getD []
  | .dropdown sel =>
    match sel with
    | some l => joinCommaSpace l
    | none => []
  | .otherField => []

/-- `extractFormFields`: keep each field whose value trims non-empty,
keyed by field name, trimmed. -/
def extractFormFields (fields : List (Str × PDFFieldValue)) : JsObj :=
  fields.foldl
    (fun acc p =>
      let fieldValue := formFieldValue p.2
      if fieldValue ≠ [] ∧ jsTrim fieldValue ≠ [] then upsert acc p.1 (jsTrim fieldValue)
      else acc)
    []

/-- `str.replace(c, '')`: remove the first occurrence only. -/
def removeFirstChar (c : Char) : Str → Str
  | [] => []
  | x :: xs => if x = c then xs else x :: removeFirstChar c xs

/-- One adjacent fragment pair of the pdf2json pass: a fragment ending
in a colon labels the next fragment; otherwise any fragment longer than
two characters is stored speculatively with its successor as value. -/
def pdf2jsonPair (fs : JsObj) (cur next : Str) : JsObj :=
  if (jsTrim cur).getLast? = some ':' ∧ jsTrim next ≠ [] then
    upsert fs (jsTrim (removeFirstChar ':' cur)) (jsTrim next)
  else if 2 < (jsTrim cur).length ∧ 0 < (jsTrim next).length then
    upsert fs (jsTrim cur) (jsTrim next)
  else fs

/-- The pass over one page's text fragments (all adjacent pairs). -/
def pdf2jsonPage (fs : JsObj) (texts : List Str) : JsObj :=
  (texts.zip texts.tail).foldl (fun acc p => pdf2jsonPair acc p.1 p.2) fs

/-- `extractWithPdf2Json`: all pages, accumulating into one mapping; a
parser error resolves to the empty mapping. -/
def extractWithPdf2Json : Option (List (List Str)) → JsObj
  | none => []
  | some pages => pages.foldl pdf2jsonPage []

/-- The document as the extraction methods observe it (section note). -/
structure PDFDocument where
  formFields : List (Str × PDFFieldValue)
  pdf2jsonPages : Option (List (List Str))
  text : Str
  ocrFields : JsObj
deriving DecidableEq, Repr

/-- The `{success, fields, fieldCount, method}` result of
`extractPDFData` (the `rawText`/`message` metadata of the source is not
modelled; no claim concerns it). -/
structure ExtractResult where
  success : Bool
  fields : JsObj
  fieldCount : Nat
  method : String
deriving DecidableEq, Repr

/-- `extractPDFData`: form fields if any; else pdf2json if more than 5
fields; else, when the text is longer than 50 characters, text-pattern
parsing if more than 5 fields; else the empty `none` result (OCR is
performed by `parsePDF`, not here). -/
def extractPDFData (doc : PDFDocument) : ExtractResult :=
  let formFields := extractFormFields doc.formFields
  if 0 < formFields.length then
    ⟨true, formFields, formFields.length, "form-fields"⟩
  else
    let structuredData := extractWithPdf2Json doc.pdf2jsonPages
    if 5 < structuredData.length then
      ⟨true, structuredData, structuredData.length, "pdf2json"⟩
    else if 50 < doc.text.length then
      let fields := parseFieldsFromText doc.text
      if 5 < fields.length then ⟨true, fields, fields.length, "text-extraction"⟩
      else ⟨true, [], 0, "none"⟩
    else ⟨true, [], 0, "none"⟩

/-- `convertExtractedDataToRows`: rebuild the mapping as the single row
of a `TabularResult` whose headers are the row's keys. -/
def convertExtractedDataToRows (extractedFields : JsObj) : TabularResult :=
  let row := extractedFields.foldl (fun m p => upsert m p.1 p.2) []
  ⟨akeys row, [row], 1⟩

/-- JavaScript truthiness of an optional string (`undefined` and the
empty string are falsy). -/
def truthy (o : Option String) : Option String :=
  match o with
  | some s => if s = "" then none else some s
  | none => none

/-- `extractWithOCR`: without an API key the method is skipped (empty
result); with one, the fields the remote OCR detects for this document. -/
def extractWithOCR (apiKey : Option String) (doc : PDFDocument) : JsObj :=
  match truthy apiKey with
  | some _ => doc.ocrFields
  | none => []

/-- The `{success, data, extractedFieldCount, method}` result of
`parsePDF`. -/
structure ParsePDFResult where
  success : Bool
  data : TabularResult
  extractedFieldCount : Nat
  method : String
deriving DecidableEq, Repr

/-- `parsePDF`: the local strategy chain; if it found nothing and an
API key is configured, the OCR result when non-empty; in every case a
success result in the uniform row shape. -/
def parsePDF (doc : PDFDocument) (apiKey : Option String) : ParsePDFResult :=
  let result := extractPDFData doc
  if result.fieldCount = 0 ∧ (truthy apiKey).isSome then
    let ocrFields := extractWithOCR apiKey doc
    if 0 < ocrFields.length then
      ⟨true, convertExtractedDataToRows ocrFields, ocrFields.length, "datalab-ocr"⟩
    else
      ⟨true, convertExtractedDataToRows result.fields, result.fieldCount, result.method⟩
  else
    ⟨true, convertExtractedDataToRows result.fields, result.fieldCount, result.method⟩

/-! ### pollAndDownloadPDF (datalabService.js lines 102-150)

The remote service is modelled as the sequence of status responses the
polls would observe (`poll n` is the `n`-th response); transport errors
of the status request re-throw outside this model.  Writing the decoded
bytes to disk is represented by the `base64Output` outcome carrying the
base64 payload, and the URL download by `urlOutput` carrying the chosen
URL. -/

/-- One status response of the Datalab fill endpoint, with the output
fields the source inspects. -/
structure FillStatus where
  status : String
  output_base64 : Option String
  output_url : Option String
  output_file_url : Option String
  file_url : Option String
  download_url : Option String
  url : Option String
  errorDetail : Option String
  fields_filled : Option (List String)
  fields_filled_count : Option Nat
  fieldsFilledCount : Option Nat
deriving DecidableEq, Repr

/-- Complete-equivalent statuses. -/
def isCompleteStatus (s : String) : Bool :=
  s == "complete" || s == "completed" || s == "finished"

/-- Failure-equivalent statuses. -/
def isFailedStatus (s : String) : Bool := s == "failed" || s == "error"

/-- `status.output_url || status.output_file_url || status.file_url ||
status.download_url || status.url`. -/
def urlChain (st : FillStatus) : Option String :=
  truthy st.output_url <|> truthy st.output_file_url <|> truthy st.file_url <|>
    truthy st.download_url <|> truthy st.url

/-- `a || b || 0` on JavaScript numbers (zero is falsy). -/
def jsNumOr (a b : Option Nat) : Nat :=
  match a with
  | some n => if n = 0 then (match b with | some m => m | none => 0) else n
  | none => match b with | some m => m | none => 0

/-- How `pollAndDownloadPDF` resolves or fails. -/
inductive FillOutcome where
  | base64Output (data : String) (fieldsFilledCount : Nat)
  | urlOutput (url : String) (fieldsFilledCount : Nat)
deriving DecidableEq, Repr

/-- The typed errors thrown by `pollAndDownloadPDF`. -/
inductive FillError where
  | noOutput
  | fillFailed (detail : String)
  | pollTimeout
deriving DecidableEq, Repr

/-- `status.error || 'Unknown error'`. -/
def errDetail (st : FillStatus) : String := (truthy st.errorDetail).getD "Unknown error"

/-- The completed-status branch: prefer the inline base64 payload, else
the URL chain, else the no-output error. -/
def handleComplete (st : FillStatus) : Except FillError FillOutcome :=
  match truthy st.output_base64 with
  | some b => .ok (.base64Output b ((st.fields_filled.map List.length).getD 0))
  | none =>
    match urlChain st with
    | some u => .ok (.urlOutput u (jsNumOr st.fields_filled_count st.fieldsFilledCount))
    | none => .error .noOutput

/-- What one poll response decides: `some` on a terminal status (the
branch taken), `none` on a pending-equivalent one. -/
def pollStep (st : FillStatus) : Option (Except FillError FillOutcome) :=
  if isCompleteStatus st.status then some (handleComplete st)
  else if isFailedStatus st.status then some (.error (.fillFailed (errDetail st)))
  else none

/-- The polling loop with `n` attempts remaining, next polling index
`k`; returns the outcome and the number of polls performed. -/
def pollLoop (poll : Nat → FillStatus) : Nat → Nat → Except FillError FillOutcome × Nat
  | 0, _ => (.error .pollTimeout, 0)
  | n + 1, k =>
    match pollStep (poll k) with
    | some r => (r, 1)
    | none =>
      let rest := pollLoop poll n (k + 1)
      (rest.1, rest.2 + 1)

/-- The source's default `maxAttempts`. -/
def defaultMaxAttempts : Nat := 90

/-- `pollAndDownloadPDF(requestId, outputPath, apiKey, maxAttempts)`:
poll from attempt 0 until a terminal status or exhaustion. -/
def pollAndDownloadPDF (poll : Nat → FillStatus) (maxAttempts : Nat) :
    Except FillError FillOutcome × Nat :=
  pollLoop poll maxAttempts 0

/-! ### POST /api/fill-form (formFilling.js lines 226-308)

After the data source is parsed, the handler validates the row index
against the parsed rows, selects the row, converts it and only then
submits to the remote service; the submission and the subsequent
polling are abstracted as a function of the converted field data. -/

/-- The row-bounds check and row selection of the fill-form handler:
`rowIndex < 0 || rowIndex >= parsedData.rows.length` fails with the
invalid-row-index error before anything is submitted. -/
def fillFormRowSelection {α : Type} (parsedData : TabularResult) (rowIndex : Int)
    (customMappings : Option (List (Str × Str)))
    (submitFill : List (Str × FieldDescriptor) → α) : Except String α :=
  if rowIndex < 0 ∨ (parsedData.rows.length : Int) ≤ rowIndex then
    .error "Invalid row index"
  else
    .ok (submitFill (convertRowToFieldData (parsedData.rows.getD rowIndex.toNat [])
      customMappings))

/-! ### Spec-side predicates -/

/-- The data-model invariant of `TabularResult`: the row count equals
the number of rows and every row key is a header. -/
def tabularInvariant (r : TabularResult) : Prop :=
  r.rowCount = r.rows.length ∧ ∀ row ∈ r.rows, ∀ p ∈ row, p.1 ∈ r.headers

/-- A field entry on which the canonical `Key: Value` serialization
round-trips: key and value trimmed and non-empty, key free of colons,
neither containing a line terminator, and the key not opening a brace
(which could make the serialization itself parse as JSON). -/
def goodEntry (p : Str × Str) : Prop :=
  ltrim p.1 = p.1 ∧ rtrim p.1 = p.1 ∧ p.1 ≠ [] ∧ ':' ∉ p.1 ∧
    p.1.all dotOk ∧ p.1.head? ≠ some '{' ∧
    ltrim p.2 = p.2 ∧ rtrim p.2 = p.2 ∧ p.2 ≠ [] ∧ p.2.all dotOk

instance (p : Str × Str) : Decidable (goodEntry p) := by
  unfold goodEntry; infer_instance

/-- Keys of an object are pairwise distinct (the invariant of every
JavaScript object model built by `upsert`). -/
def keysNodup {α : Type} (m : List (Str × α)) : Prop := (m.map Prod.fst).Nodup

instance {α : Type} (m : List (Str × α)) : Decidable (keysNodup m) := by
  unfold keysNodup; infer_instance

/-! ## Theorems -/

/-! ### Basic lemmas on trimming, splitting and objects -/

theorem rtrim_cons_of_not_ws {x : Char} (h : jsIsWs x = false) (xs : Str) :
    rtrim (x :: xs) = x :: rtrim xs := by
  simp only [rtrim]
  split
  · next heq => rw [heq, h]; simp
  · rfl

theorem rtrim_append_of_rtrim_eq {v : Str} (hv : rtrim v = v) (hne : v ≠ []) :
    ∀ a : Str, rtrim (a ++ v) = a ++ v := by
  intro a
  induction a with
  | nil => simpa using hv
  | cons x xs ih =>
    show rtrim (x :: (xs ++ v)) = x :: (xs ++ v)
    simp only [rtrim]
    split
    · next heq =>
      rw [ih] at heq
      exact absurd heq (by simp [hne])
    · rw [ih]

theorem ltrim_cons_of_not_ws {x : Char} (h : jsIsWs x = false) (xs : Str) :
    ltrim (x :: xs) = x :: xs := by
  simp [ltrim, List.dropWhile, h]

theorem ltrim_eq_self_head {s : Str} (h : ltrim s = s) (hne : s ≠ []) :
    ∃ x xs, s = x :: xs ∧ jsIsWs x = false := by
  match s, hne with
  | x :: xs, _ =>
    refine ⟨x, xs, rfl, ?_⟩
    by_contra hx
    have hx' : jsIsWs x = true := by
      cases hw : jsIsWs x with
      | false => exact absurd hw hx
      | true => rfl
    have : ltrim (x :: xs) = ltrim xs := by simp [ltrim, List.dropWhile, hx']
    rw [h] at this
    have hlen := congrArg List.length this
    simp [ltrim] at hlen
    have hle := (List.dropWhile_sublist (l := xs) jsIsWs).length_le
    omega

theorem splitOnChar_not_mem {c : Char} : ∀ {l : Str}, c ∉ l → splitOnChar c l = [l] := by
  intro l
  induction l with
  | nil => intro _; rfl
  | cons x xs ih =>
    intro h
    have hx : ¬ x = c := fun he => h (by simp [he])
    have hxs : c ∉ xs := fun hm => h (by simp [hm])
    simp only [splitOnChar, if_neg hx, ih hxs]

theorem splitOnChar_append {c : Char} {l : Str} (h : c ∉ l) (r : Str) :
    splitOnChar c (l ++ c :: r) = l :: splitOnChar c r := by
  induction l with
  | nil => simp [splitOnChar]
  | cons x xs ih =>
    have hx : ¬ x = c := fun he => h (by simp [he])
    have hxs : c ∉ xs := fun hm => h (by simp [hm])
    show splitOnChar c (x :: (xs ++ c :: r)) = (x :: xs) :: splitOnChar c r
    simp only [splitOnChar, if_neg hx, ih hxs]

theorem splitOnChar_joinLines : ∀ {ls : List Str}, ls ≠ [] → (∀ l ∈ ls, '\n' ∉ l) →
    splitOnChar '\n' (joinLines ls) = ls := by
  intro ls
  induction ls with
  | nil => intro h; exact absurd rfl h
  | cons l rest ih =>
    intro _ hall
    match rest with
    | [] => exact splitOnChar_not_mem (hall l (by simp))
    | l2 :: rest' =>
      show splitOnChar '\n' (l ++ '\n' :: joinLines (l2 :: rest')) = l :: l2 :: rest'
      rw [splitOnChar_append (hall l (by simp))]
      rw [ih (by simp) (fun x hx => hall x (by simp [hx]))]

theorem not_any_key {α : Type} {m : List (Str × α)} {k : Str} (h : k ∉ akeys m) :
    m.any (fun p => decide (p.1 = k)) = false := by
  rw [List.any_eq_false]
  intro p hp
  simp only [decide_eq_true_eq]
  intro he
  exact h (by simp only [akeys, List.mem_map]; exact ⟨p, hp, he⟩)

theorem upsert_of_not_mem {α : Type} {m : List (Str × α)} {k : Str} (h : k ∉ akeys m) (v : α) :
    upsert m k v = m ++ [(k, v)] := by
  unfold upsert
  rw [not_any_key h]
  simp

theorem akeys_upsert {α : Type} (m : List (Str × α)) (k : Str) (v : α) :
    ∀ x ∈ akeys (upsert m k v), x ∈ akeys m ∨ x = k := by
  intro x hx
  unfold upsert at hx
  by_cases hmem : m.any (fun p => decide (p.1 = k)) = true
  · rw [if_pos hmem] at hx
    simp only [akeys, List.map_map, List.mem_map, Function.comp] at hx
    obtain ⟨p, hp, he⟩ := hx
    by_cases hk : p.1 = k
    · right; rw [if_pos hk] at he; exact he.symm
    · left; rw [if_neg hk] at he
      simp only [akeys, List.mem_map]
      exact ⟨p, hp, he⟩
  · rw [if_neg hmem] at hx
    simp only [akeys, List.map_append, List.mem_append] at hx
    rcases hx with hx | hx
    · left; exact hx
    · right; simpa using hx

theorem akeys_upsert_mem {α : Type} {m : List (Str × α)} {k : Str}
    (hm : m.any (fun p => decide (p.1 = k)) = true) (v : α) :
    akeys (upsert m k v) = akeys m := by
  unfold upsert
  rw [if_pos hm]
  simp only [akeys, List.map_map]
  apply List.map_congr_left
  intro p _
  simp only [Function.comp]
  by_cases hk : p.1 = k
  · rw [if_pos hk]; exact hk.symm
  · rw [if_neg hk]

theorem keysNodup_upsert {α : Type} {m : List (Str × α)} (h : keysNodup m) (k : Str) (v : α) :
    keysNodup (upsert m k v) := by
  by_cases hmem : m.any (fun p => decide (p.1 = k)) = true
  · unfold keysNodup
    rw [show (upsert m k v).map Prod.fst = akeys (upsert m k v) from rfl, akeys_upsert_mem hmem]
    exact h
  · have hk : k ∉ akeys m := by
      intro hin
      simp only [akeys, List.mem_map] at hin
      obtain ⟨p, hp, he⟩ := hin
      exact hmem (by rw [List.any_eq_true]; exact ⟨p, hp, by simp [he]⟩)
    rw [upsert_of_not_mem hk]
    unfold keysNodup at h ⊢
    simp only [List.map_append, List.map_cons, List.map_nil]
    rw [List.nodup_append]
    refine ⟨h, List.nodup_singleton _, ?_⟩
    intro a ha hb
    simp only [List.mem_singleton] at hb
    exact hk (by rw [← hb]; exact ha)

theorem keysNodup_amerge {m kvs : JsObj} (h : keysNodup m) : keysNodup (amerge m kvs) := by
  unfold amerge
  induction kvs generalizing m with
  | nil => exact h
  | cons p rest ih => exact ih (keysNodup_upsert h p.1 p.2)

theorem keysNodup_parseLine {m : JsObj} (h : keysNodup m) (l : Str) :
    keysNodup (parseLine m l) := by
  unfold parseLine applyAction
  match lineAction l with
  | .none => exact h
  | .put k v => exact keysNodup_upsert h k v
  | .merge kvs => exact keysNodup_amerge h

theorem keysNodup_parseTextCore (s : Str) : keysNodup (parseTextCore s) := by
  unfold parseTextCore
  have hfold : ∀ (ls : List Str) (m : JsObj), keysNodup m → keysNodup (ls.foldl parseLine m) := by
    intro ls
    induction ls with
    | nil => intro m hm; exact hm
    | cons l rest ih => intro m hm; exact ih _ (keysNodup_parseLine hm l)
  have hbase : keysNodup ((splitOnChar '\n' s).foldl parseLine []) :=
    hfold _ [] (by simp [keysNodup])
  simp only []
  split
  · split
    · exact keysNodup_amerge hbase
    · exact hbase
  · exact hbase

/-! ### Claim theorems: scenarios and the extractor chain -/

/-- C8: On the input `"Name: Jane Doe\nEmail: jane@x.com\n\nPhone:555-1234"`,
`parseText` yields headers Name, Email, Phone in that order and the
single row with the corresponding values: the blank line is skipped and
`Phone:555-1234` (no space after the colon) is captured by the colon
pattern, which is tried before equals, dash, pipe, JSON and tab (the
line's action is a `put` produced by the colon matcher). -/
theorem parseText_scenario_colon_priority :
    parseText "Name: Jane Doe\nEmail: jane@x.com\n\nPhone:555-1234" =
      ⟨["Name".data, "Email".data, "Phone".data],
       [[("Name".data, "Jane Doe".data), ("Email".data, "jane@x.com".data),
         ("Phone".data, "555-1234".data)]], 1⟩ ∧
    lineAction "Phone:555-1234".data = .put "Phone".data "555-1234".data := by
  decide

/-- C9: For every parsed data set (all of whose producers keep
`rowCount` equal to the number of rows), the fill-form handler fails
with the invalid-row-index error whenever the requested row index is
negative or at least the row count, and the result does not depend on
the remote submit function — nothing is submitted.  Row index 5 against
a two-row result is an instance. -/
theorem fillForm_invalid_row_index {α : Type} (parsedData : TabularResult) (rowIndex : Int)
    (customMappings : Option (List (Str × Str)))
    (submitFill submitFill' : List (Str × FieldDescriptor) → α)
    (hrc : parsedData.rowCount = parsedData.rows.length)
    (h : rowIndex < 0 ∨ (parsedData.rowCount : Int) ≤ rowIndex) :
    fillFormRowSelection parsedData rowIndex customMappings submitFill =
      .error "Invalid row index" ∧
    fillFormRowSelection parsedData rowIndex customMappings submitFill =
      fillFormRowSelection parsedData rowIndex customMappings submitFill' := by
  rw [hrc] at h
  unfold fillFormRowSelection
  rw [if_pos h, if_pos h]
  exact ⟨rfl, rfl⟩

/-- C9 witness: row index 5 against a `TabularResult` with 2 rows. -/
theorem fillForm_invalid_row_index_witness :
    fillFormRowSelection ⟨["a".data], [[("a".data, "1".data)], [("a".data, "2".data)]], 2⟩ 5 none
      (fun fd => fd.length) = .error "Invalid row index" :=
  (fillForm_invalid_row_index _ 5 none _ (fun _ => 0) rfl (by decide)).1

/-- C7: When every extraction strategy yields zero fields (no readable
form-field values, empty structural pairing, no text-pattern fields, no
OCR detections), `parsePDF` does not raise an error: it returns a
success result with `extractedFieldCount` 0, method `none`, and a
`TabularResult` with empty headers, exactly one empty row, and
`rowCount` 1. -/
theorem parsePDF_exhausted_zero_fields (doc : PDFDocument) (apiKey : Option String)
    (h1 : extractFormFields doc.formFields = [])
    (h2 : extractWithPdf2Json doc.pdf2jsonPages = [])
    (h3 : parseFieldsFromText doc.text = [])
    (h4 : doc.ocrFields = []) :
    parsePDF doc apiKey = ⟨true, ⟨[], [[]], 1⟩, 0, "none"⟩ := by
  have hres : extractPDFData doc = ⟨true, [], 0, "none"⟩ := by
    simp only [extractPDFData]
    rw [h1, h2, h3]
    simp
  simp only [parsePDF, extractWithOCR]
  rw [hres]
  cases htr : truthy apiKey with
  | none => simp [convertExtractedDataToRows, akeys]
  | some s => simp [h4, convertExtractedDataToRows, akeys]

/-- C7 witness: the empty document with no API key. -/
theorem parsePDF_exhausted_zero_fields_witness :
    parsePDF ⟨[], none, [], []⟩ none = ⟨true, ⟨[], [[]], 1⟩, 0, "none"⟩ :=
  parsePDF_exhausted_zero_fields ⟨[], none, [], []⟩ none (by decide) (by decide) (by decide)
    (by decide)

/-- C1: Strategy ordering of the document content extractor.  Whenever
native form-field extraction yields at least one non-empty field,
`extractPDFData` returns that form-fields result; the result then
depends only on the form fields — the structural, text-heuristic and
remote-OCR observations of the document are never consulted, even if
they would yield more fields.  Moreover a `pdf2json` result is returned
only with more than 5 fields, and a `text-extraction` result only with
more than 5 fields. -/
theorem extractPDFData_formFields_priority :
    (∀ doc : PDFDocument, extractFormFields doc.formFields ≠ [] →
      extractPDFData doc = ⟨true, extractFormFields doc.formFields,
        (extractFormFields doc.formFields).length, "form-fields"⟩) ∧
    (∀ d1 d2 : PDFDocument, d1.formFields = d2.formFields →
      extractFormFields d1.formFields ≠ [] → extractPDFData d1 = extractPDFData d2) ∧
    (∀ doc : PDFDocument, (extractPDFData doc).method = "pdf2json" →
      5 < (extractPDFData doc).fieldCount) ∧
    (∀ doc : PDFDocument, (extractPDFData doc).method = "text-extraction" →
      5 < (extractPDFData doc).fieldCount) := by
  have main : ∀ doc : PDFDocument, extractFormFields doc.formFields ≠ [] →
      extractPDFData doc = ⟨true, extractFormFields doc.formFields,
        (extractFormFields doc.formFields).length, "form-fields"⟩ := by
    intro doc h
    simp only [extractPDFData]
    rw [if_pos (List.length_pos.mpr h)]
  have thresholds : ∀ (doc : PDFDocument) (m : String), (extractPDFData doc).method = m →
      (m = "pdf2json" ∨ m = "text-extraction") → 5 < (extractPDFData doc).fieldCount := by
    intro doc m h hm
    simp only [extractPDFData] at h ⊢
    by_cases hc1 : 0 < (extractFormFields doc.formFields).length
    · rw [if_pos hc1] at h ⊢
      rcases hm with hm | hm <;> rw [hm] at h <;> simp at h
    · rw [if_neg hc1] at h ⊢
      by_cases hc2 : 5 < (extractWithPdf2Json doc.pdf2jsonPages).length
      · rw [if_pos hc2] at h ⊢; exact hc2
      · rw [if_neg hc2] at h ⊢
        by_cases hc3 : 50 < doc.text.length
        · rw [if_pos hc3] at h ⊢
          by_cases hc4 : 5 < (parseFieldsFromText doc.text).length
          · rw [if_pos hc4] at h ⊢; exact hc4
          · rw [if_neg hc4] at h ⊢
            rcases hm with hm | hm <;> rw [hm] at h <;> simp at h
        · rw [if_neg hc3] at h ⊢
          rcases hm with hm | hm <;> rw [hm] at h <;> simp at h
  refine ⟨main, ?_, ?_, ?_⟩
  · intro d1 d2 he h
    rw [main d1 h, main d2 (he ▸ h), he]
  · intro doc h
    exact thresholds doc _ h (Or.inl rfl)
  · intro doc h
    exact thresholds doc _ h (Or.inr rfl)

/-- C1 witness: a document with one filled text form field is decided
by the form-fields method. -/
theorem extractPDFData_formFields_priority_witness :
    extractPDFData ⟨[("Name".data, PDFFieldValue.textField (some "Jane".data))],
      none, [], []⟩ = ⟨true, [("Name".data, "Jane".data)], 1, "form-fields"⟩ := by
  rw [extractPDFData_formFields_priority.1 _ (by decide)]
  decide

/-! ### Claim theorems: the external fill client -/

theorem pollLoop_first_terminal (poll : Nat → FillStatus) :
    ∀ (n rem k : Nat) (r : Except FillError FillOutcome), n < rem →
      (∀ i, i < n → pollStep (poll (k + i)) = none) → pollStep (poll (k + n)) = some r →
      pollLoop poll rem k = (r, n + 1) := by
  intro n
  induction n with
  | zero =>
    intro rem k r hlt _ hterm
    match rem, hlt with
    | m + 1, _ =>
      simp only [pollLoop]
      rw [show k + 0 = k from rfl] at hterm
      rw [hterm]
  | succ n ih =>
    intro rem k r hlt hpend hterm
    match rem, hlt with
    | m + 1, hlt =>
      have h0 : pollStep (poll k) = none := by
        have := hpend 0 (Nat.succ_pos n)
        simpa using this
      simp only [pollLoop, h0]
      have hrec := ih m (k + 1) r (Nat.lt_of_succ_lt_succ hlt)
        (fun i hi => by
          have := hpend (i + 1) (Nat.succ_lt_succ hi)
          rw [show k + (i + 1) = k + 1 + i by omega] at this
          exact this)
        (by rw [show k + 1 + n = k + (n + 1) by omega]; exact hterm)
      rw [hrec]

theorem pollLoop_count_le (poll : Nat → FillStatus) :
    ∀ (n k : Nat), (pollLoop poll n k).2 ≤ n := by
  intro n
  induction n with
  | zero => intro k; simp [pollLoop]
  | succ n ih =>
    intro k
    simp only [pollLoop]
    cases pollStep (poll k) with
    | some r => simp
    | none => simpa using Nat.succ_le_succ (ih (k + 1))

theorem pollLoop_all_pending (poll : Nat → FillStatus) :
    ∀ (n k : Nat), (∀ i, i < n → pollStep (poll (k + i)) = none) →
      pollLoop poll n k = (.error .pollTimeout, n) := by
  intro n
  induction n with
  | zero => intro k _; rfl
  | succ n ih =>
    intro k hpend
    have h0 : pollStep (poll k) = none := by
      have := hpend 0 (Nat.succ_pos n)
      simpa using this
    simp only [pollLoop, h0]
    rw [ih (k + 1) (fun i hi => by
      have := hpend (i + 1) (Nat.succ_lt_succ hi)
      rw [show k + (i + 1) = k + 1 + i by omega] at this
      exact this)]

/-- C4: When the first terminal response is a complete-equivalent
status, `pollAndDownloadPDF` resolves from that response after exactly
as many polls: preferring the inline base64 payload; else following the
first truthy URL of the fallback chain; failing with the no-output
error when a completed response carries neither; and failing with the
fill-failed error carrying the upstream detail on a failed or error
status.  In particular the sequence pending, pending, completed with an
inline base64 payload resolves to the decoded payload after exactly 3
poll calls. -/
theorem pollAndDownloadPDF_complete_semantics :
    (∀ (poll : Nat → FillStatus) (maxAttempts n : Nat) (r : Except FillError FillOutcome),
      n < maxAttempts → (∀ i, i < n → pollStep (poll i) = none) → pollStep (poll n) = some r →
      pollAndDownloadPDF poll maxAttempts = (r, n + 1)) ∧
    (∀ st : FillStatus, isCompleteStatus st.status = true →
      (∀ b, truthy st.output_base64 = some b →
        pollStep st = some (.ok (.base64Output b ((st.fields_filled.map List.length).getD 0)))) ∧
      (∀ u, truthy st.output_base64 = none → urlChain st = some u →
        pollStep st = some (.ok (.urlOutput u (jsNumOr st.fields_filled_count st.fieldsFilledCount)))) ∧
      (truthy st.output_base64 = none → urlChain st = none →
        pollStep st = some (.error .noOutput))) ∧
    (∀ st : FillStatus, isFailedStatus st.status = true →
      pollStep st = some (.error (.fillFailed (errDetail st)))) ∧
    pollAndDownloadPDF
      (fun n => if n < 2 then
          ⟨"pending", none, none, none, none, none, none, none, none, none, none⟩
        else
          ⟨"completed", some "QUJD", none, none, none, none, none, none,
            some ["a", "b"], none, none⟩)
      defaultMaxAttempts = (.ok (.base64Output "QUJD" 2), 3) := by
  refine ⟨?_, ?_, ?_, ?_⟩
  · intro poll maxAttempts n r hlt hpend hterm
    exact pollLoop_first_terminal poll n maxAttempts 0 r hlt
      (fun i hi => by simpa using hpend i hi) (by simpa using hterm)
  · intro st hc
    refine ⟨?_, ?_, ?_⟩
    · intro b hb
      simp only [pollStep, hc, if_true, handleComplete, hb]
    · intro u hb hu
      simp only [pollStep, hc, if_true, handleComplete, hb, hu]
    · intro hb hu
      simp only [pollStep, hc, if_true, handleComplete, hb, hu]
  · intro st hf
    have hc : isCompleteStatus st.status = false := by
      have hdis : isFailedStatus st.status = true → isCompleteStatus st.status = false := by
        simp only [isFailedStatus, Bool.or_eq_true, beq_iff_eq]
        rintro (h2 | h2) <;> (rw [h2]; decide)
      exact hdis hf
    simp only [pollStep, hc, hf]
    rfl
  · exact pollLoop_first_terminal _ 2 defaultMaxAttempts 0 _ (by decide)
      (fun i hi => by interval_cases i <;> rfl) (by decide)

/-- C4 witness: the first universal part applied to a failing second
poll (one pending response, then a failed status with detail). -/
theorem pollAndDownloadPDF_complete_semantics_witness :
    pollAndDownloadPDF
      (fun n => if n = 0 then
          ⟨"pending", none, none, none, none, none, none, none, none, none, none⟩
        else
          ⟨"failed", none, none, none, none, none, none, some "boom", none, none, none⟩)
      5 = (.error (.fillFailed "boom"), 2) :=
  pollAndDownloadPDF_complete_semantics.1 _ 5 1 _ (by decide)
    (fun i hi => by have h0 : i = 0 := by omega
                    rw [h0]; rfl) (by decide)

/-- C5: For every poll sequence, `pollAndDownloadPDF` performs at most
`maxAttempts` poll calls, and when no poll returns a terminal status it
fails with the timeout error after exactly `maxAttempts` polls — the
loop always terminates; the source's default bound is 90. -/
theorem pollAndDownloadPDF_bounded :
    (∀ (poll : Nat → FillStatus) (maxAttempts : Nat),
      (pollAndDownloadPDF poll maxAttempts).2 ≤ maxAttempts ∧
      ((∀ i, i < maxAttempts → pollStep (poll i) = none) →
        pollAndDownloadPDF poll maxAttempts = (.error .pollTimeout, maxAttempts))) ∧
    defaultMaxAttempts = 90 := by
  refine ⟨?_, rfl⟩
  intro poll maxAttempts
  constructor
  · exact pollLoop_count_le poll maxAttempts 0
  · intro hpend
    exact pollLoop_all_pending poll maxAttempts 0 (fun i hi => by simpa using hpend i hi)

/-- C5 witness: a sequence that never turns terminal times out after
exactly the attempt bound. -/
theorem pollAndDownloadPDF_bounded_witness :
    pollAndDownloadPDF
      (fun _ => ⟨"pending", none, none, none, none, none, none, none, none, none, none⟩) 2 =
      (.error .pollTimeout, 2) :=
  (pollAndDownloadPDF_bounded.1 _ 2).2 (fun i _ => by decide)

/-! ### Claim theorems: the data-model invariant -/

theorem akeys_foldl_upsert {α : Type} :
    ∀ (l : List (Str × α)) (acc : List (Str × α)) (x : Str),
      x ∈ akeys (l.foldl (fun m p => upsert m p.1 p.2) acc) →
      x ∈ akeys acc ∨ x ∈ l.map Prod.fst := by
  intro l
  induction l with
  | nil => intro acc x hx; exact Or.inl hx
  | cons p rest ih =>
    intro acc x hx
    rcases ih (upsert acc p.1 p.2) x hx with hin | hin
    · rcases akeys_upsert acc p.1 p.2 x hin with hin | hin
      · exact Or.inl hin
      · refine Or.inr ?_
        simp only [List.map_cons, List.mem_cons]
        exact Or.inl hin
    · refine Or.inr ?_
      simp only [List.map_cons, List.mem_cons]
      exact Or.inr hin

theorem csvRows_nil_ok {headers : List Str} {rs : List JsObj}
    (h : csvRows headers [] = .ok rs) : rs = [] := by
  simp only [csvRows] at h
  exact (Except.ok.inj h).symm

theorem csvRows_cons {headers : List Str} {l : Str} {ls : List Str} {rs : List JsObj}
    (h : csvRows headers (l :: ls) = .ok rs) :
    ∃ rs', csvRows headers ls = .ok rs' ∧
      rs = (headers.zip (splitOnChar ',' l)).foldl (fun m p => upsert m p.1 p.2) [] :: rs' := by
  simp only [csvRows] at h
  by_cases hc : (splitOnChar ',' l).length = headers.length
  · rw [if_pos hc] at h
    cases hrec : csvRows headers ls with
    | error e => rw [hrec] at h; cases h
    | ok rs' =>
      rw [hrec] at h
      exact ⟨rs', rfl, (Except.ok.inj h).symm⟩
  · rw [if_neg hc] at h; cases h

theorem csvRows_rows_keys (headers : List Str) :
    ∀ (ls : List Str) (rs : List JsObj), csvRows headers ls = .ok rs →
      ∀ row ∈ rs, ∀ p ∈ row, p.1 ∈ headers := by
  intro ls
  induction ls with
  | nil =>
    intro rs h row hrow
    rw [csvRows_nil_ok h] at hrow
    simp at hrow
  | cons l rest ih =>
    intro rs h row hrow p hp
    obtain ⟨rs', hrec, hrs⟩ := csvRows_cons h
    subst hrs
    rcases List.mem_cons.mp hrow with hrow | hrow
    · have hp' : p ∈ (headers.zip (splitOnChar ',' l)).foldl (fun m q => upsert m q.1 q.2) [] := by
        rw [← hrow]; exact hp
      have hk := List.mem_map_of_mem Prod.fst hp'
      rcases akeys_foldl_upsert _ [] p.1 hk with hin | hin
      · simp [akeys] at hin
      · simp only [List.mem_map] at hin
        obtain ⟨q, hq, he⟩ := hin
        rw [← he]
        exact (List.of_mem_zip hq).1
    · exact ih rs' hrec row hrow p hp

/-- C6: Every `TabularResult` produced by `parseCSV` (on success), by
`parseText`, or by `convertExtractedDataToRows` satisfies the data
model invariant: `rowCount` equals the number of rows and every row's
key set is contained in the headers. -/
theorem tabularResult_invariant :
    (∀ (content : String) (r : TabularResult), parseCSV content = .ok r → tabularInvariant r) ∧
    (∀ s : Str, tabularInvariant (parseTextTR s)) ∧
    (∀ fs : JsObj, tabularInvariant (convertExtractedDataToRows fs)) := by
  refine ⟨?_, ?_, ?_⟩
  · intro content r h
    unfold parseCSV at h
    cases hsplit : (splitOnChar '\n' content.data).filter (fun l => decide (l ≠ [])) with
    | nil =>
      rw [hsplit] at h
      have hr : r = ⟨[], [], 0⟩ := (Except.ok.inj h).symm
      subst hr
      exact ⟨rfl, by intro row hrow; simp at hrow⟩
    | cons hl dls =>
      rw [hsplit] at h
      have h' : (match csvRows (splitOnChar ',' hl) dls with
          | Except.ok rows =>
            Except.ok (⟨splitOnChar ',' hl, rows, rows.length⟩ : TabularResult)
          | Except.error e => Except.error e) = Except.ok r := h
      cases hrows : csvRows (splitOnChar ',' hl) dls with
      | error e => rw [hrows] at h'; cases h'
      | ok rows =>
        rw [hrows] at h'
        have hr : r = ⟨splitOnChar ',' hl, rows, rows.length⟩ := (Except.ok.inj h').symm
        subst hr
        exact ⟨rfl, fun row hrow p hp => csvRows_rows_keys _ dls rows hrows row hrow p hp⟩
  · intro s
    refine ⟨rfl, ?_⟩
    intro row hrow p hp
    simp only [parseTextTR, List.mem_singleton] at hrow
    subst hrow
    exact List.mem_map_of_mem Prod.fst hp
  · intro fs
    refine ⟨rfl, ?_⟩
    intro row hrow p hp
    simp only [convertExtractedDataToRows, List.mem_singleton] at hrow
    subst hrow
    exact List.mem_map_of_mem Prod.fst hp

/-- C6 witness: the invariant on a concrete successful CSV parse. -/
theorem tabularResult_invariant_witness :
    tabularInvariant ⟨["a".data, "b".data],
      [[("a".data, "1".data), ("b".data, "2".data)]], 1⟩ :=
  tabularResult_invariant.1 "a,b\n1,2" _ (by decide)

/-! ### Claim theorems: row-to-field-data conversion -/

theorem keysNodup_eq_val {α : Type} :
    ∀ {l : List (Str × α)}, (l.map Prod.fst).Nodup →
      ∀ {k : Str} {v w : α}, (k, v) ∈ l → (k, w) ∈ l → v = w := by
  intro l
  induction l with
  | nil => intro _ k v w hv; simp at hv
  | cons p rest ih =>
    intro h k v w hv hw
    simp only [List.map_cons, List.nodup_cons] at h
    rcases List.mem_cons.mp hv with hv | hv <;> rcases List.mem_cons.mp hw with hw | hw
    · rw [← hv] at hw; exact (Prod.mk.injEq _ _ _ _ ▸ hw.symm).2
    · exfalso
      apply h.1
      rw [show p.1 = k from congrArg Prod.fst hv.symm]
      exact List.mem_map_of_mem Prod.fst hw
    · exfalso
      apply h.1
      rw [show p.1 = k from congrArg Prod.fst hw.symm]
      exact List.mem_map_of_mem Prod.fst hv
    · exact ih h.2 hv hw

theorem convertRowToFieldData_eq_filterMap (row : JsObj) (cm : Option (List (Str × Str)))
    (h : keysNodup row) :
    convertRowToFieldData row cm = row.filterMap (fun p =>
      if jsTrim p.2 = [] then none
      else some (p.1, ⟨jsTrim p.2, mappingDescription cm p.1⟩)) := by
  have go : ∀ (l : JsObj) (acc : List (Str × FieldDescriptor)),
      (∀ p ∈ l, p.1 ∉ akeys acc) → keysNodup l →
      l.foldl (fun fieldData p =>
        if p.2 ≠ [] ∧ jsTrim p.2 ≠ [] then
          upsert fieldData p.1 ⟨jsTrim p.2, mappingDescription cm p.1⟩
        else fieldData) acc =
      acc ++ l.filterMap (fun p =>
        if jsTrim p.2 = [] then none
        else some (p.1, ⟨jsTrim p.2, mappingDescription cm p.1⟩)) := by
    intro l
    induction l with
    | nil => intro acc _ _; simp
    | cons p rest ih =>
      intro acc hdisj hnd
      simp only [keysNodup, List.map_cons, List.nodup_cons] at hnd
      by_cases ht : jsTrim p.2 = []
      · have hcond : ¬ (p.2 ≠ [] ∧ jsTrim p.2 ≠ []) := fun hc => hc.2 ht
        simp only [List.foldl_cons, List.filterMap_cons, if_neg hcond, if_pos ht]
        exact ih acc (fun q hq => hdisj q (List.mem_cons_of_mem p hq)) hnd.2
      · have hne : p.2 ≠ [] := by
          intro he
          rw [he] at ht
          exact ht rfl
        simp only [List.foldl_cons, List.filterMap_cons, if_pos (And.intro hne ht), if_neg ht]
        rw [upsert_of_not_mem (hdisj p (List.mem_cons_self p rest)) _]
        have hstep := ih
          (acc ++ [(p.1, (⟨jsTrim p.2, mappingDescription cm p.1⟩ : FieldDescriptor))])
          (by
            intro q hq
            simp only [akeys, List.map_append, List.mem_append, List.map_cons, List.map_nil,
              List.mem_singleton]
            rintro (hin | hin)
            · exact hdisj q (List.mem_cons_of_mem p hq) hin
            · exact hnd.1 (hin ▸ List.mem_map_of_mem Prod.fst hq))
          hnd.2
        rw [hstep]
        simp
  have := go row [] (by simp [akeys]) h
  simpa [convertRowToFieldData] using this

/-- C2 (amended): for every row with distinct keys and every mapping
table (caller-supplied or the default), `convertRowToFieldData` emits
no entry for a key whose value trims to empty — the output has at most
as many entries as the row — and every emitted entry is keyed by the
original column name with value the trimmed row value and description
the mapping-table entry for the lowercased, whitespace-collapsed key,
falling back to the original key when the key is unmatched or the
matched entry is empty (the source's `mappings[normalizedKey] || key`
treats an empty table entry as unmatched). -/
theorem convertRowToFieldData_spec (row : JsObj) (cm : Option (List (Str × Str)))
    (h : keysNodup row) :
    (convertRowToFieldData row cm).length ≤ row.length ∧
    (∀ q ∈ convertRowToFieldData row cm, ∃ v, (q.1, v) ∈ row ∧ jsTrim v ≠ [] ∧
      q.2.value = jsTrim v ∧ q.2.description = mappingDescription cm q.1) ∧
    (∀ k v, (k, v) ∈ row → jsTrim v = [] → ∀ q ∈ convertRowToFieldData row cm, q.1 ≠ k) := by
  rw [convertRowToFieldData_eq_filterMap row cm h]
  refine ⟨List.length_filterMap_le _ _, ?_, ?_⟩
  · intro q hq
    rw [List.mem_filterMap] at hq
    obtain ⟨p, hp, hf⟩ := hq
    by_cases ht : jsTrim p.2 = []
    · rw [if_pos ht] at hf; cases hf
    · rw [if_neg ht] at hf
      cases hf
      exact ⟨p.2, by simpa using hp, ht, rfl, rfl⟩
  · intro k v hkv ht q hq hk
    rw [List.mem_filterMap] at hq
    obtain ⟨p, hp, hf⟩ := hq
    by_cases ht2 : jsTrim p.2 = []
    · rw [if_pos ht2] at hf; cases hf
    · rw [if_neg ht2] at hf
      cases hf
      have hk' : p.1 = k := hk
      have hpk : (k, p.2) ∈ row := by
        have hpe : p = (k, p.2) := by
          cases p
          simp only [Prod.mk.injEq]
          exact ⟨hk', trivial⟩
        rw [← hpe]
        exact hp
      exact ht2 (by rw [keysNodup_eq_val h hpk hkv]; exact ht)

/-- C2 witness: a row with one storable and one whitespace-only value
emits at most as many entries as the row. -/
theorem convertRowToFieldData_spec_witness :
    (convertRowToFieldData [("City".data, " Rome ".data), ("note".data, "  ".data)]
      none).length ≤ 2 :=
  (convertRowToFieldData_spec _ none (by decide)).1

/-- C2 counterexample: with the caller-supplied table mapping the
normalized key to the empty string, the emitted description is the
original key, not the (matched) table entry — refuting the claim that a
matched key always receives the table entry as description. -/
theorem convertRowToFieldData_empty_mapping_counterexample :
    convertRowToFieldData [("foo".data, " x ".data)] (some [("foo".data, "".data)]) =
      [("foo".data, ⟨"x".data, "foo".data⟩)] ∧
    alookup (normalizeKey "foo".data) [("foo".data, "".data)] = some "".data ∧
    ("foo".data : Str) ≠ "".data := by decide

/-! ### Claim theorems: the colon pattern against single-line JSON -/

theorem jsonWs_imp_jsIsWs {c : Char} (h : jsonWs c = true) : jsIsWs c = true := by
  simp only [jsonWs, Bool.or_eq_true, beq_iff_eq] at h
  rcases h with ((h | h) | h) | h <;> simp [jsIsWs, h]

theorem not_jsonWs_of_not_jsIsWs {c : Char} (h : jsIsWs c = false) : jsonWs c = false := by
  cases hj : jsonWs c with
  | false => rfl
  | true => rw [jsonWs_imp_jsIsWs hj] at h; cases h

theorem rtrim_all {p : Char → Bool} : ∀ {l : Str}, l.all p = true → (rtrim l).all p = true := by
  intro l
  induction l with
  | nil => intro _; rfl
  | cons x xs ih =>
    intro h
    rw [List.all_cons, Bool.and_eq_true] at h
    simp only [rtrim]
    split
    · split
      · rfl
      · simp [h.1]
    · rw [List.all_cons, Bool.and_eq_true]
      exact ⟨h.1, ih h.2⟩

theorem all_of_sublist {p : Char → Bool} {l' l : Str} (h : List.Sublist l' l) (ha : l.all p = true) :
    l'.all p = true :=
  List.all_eq_true.mpr (fun x hx => List.all_eq_true.mp ha x (h.subset hx))

theorem dropWhile_append_all {p : Char → Bool} : ∀ {a : Str}, a.all p = true →
    ∀ (b : Str), List.dropWhile p (a ++ b) = List.dropWhile p b := by
  intro a
  induction a with
  | nil => intro _ b; rfl
  | cons x xs ih =>
    intro h b
    rw [List.all_cons, Bool.and_eq_true] at h
    show List.dropWhile p (x :: (xs ++ b)) = List.dropWhile p b
    rw [List.dropWhile_cons_of_pos h.1]
    exact ih h.2 b

theorem jsonStrGo_decomp : ∀ {r k r2 : Str}, jsonStrGo r = some (k, r2) → r = k ++ '"' :: r2 := by
  intro r
  induction r with
  | nil => intro k r2 h; cases h
  | cons c rest ih =>
    intro k r2 h
    unfold jsonStrGo at h
    by_cases hq : c = '"'
    · rw [if_pos hq] at h
      cases h
      rw [hq]
      rfl
    · rw [if_neg hq] at h
      by_cases hb : c = '\\' ∨ c.toNat < 32
      · rw [if_pos hb] at h; cases h
      · rw [if_neg hb] at h
        cases hrec : jsonStrGo rest with
        | none => rw [hrec] at h; cases h
        | some pr =>
          rw [hrec] at h
          cases h
          rw [show rest = pr.1 ++ '"' :: pr.2 from ih hrec]
          rfl

theorem sepScan_some_nonempty {c : Char} :
    ∀ {pre s k v : Str}, sepScan c pre s = some (k, v) → k ≠ [] ∧ v ≠ [] := by
  intro pre s
  induction s generalizing pre with
  | nil => intro k v h; cases h
  | cons x xs ih =>
    intro k v h
    unfold sepScan at h
    split at h
    · next hc =>
      cases h
      exact ⟨hc.2.1, hc.2.2.2.2.1⟩
    · exact ih h

theorem sepScan_ne_none_of_valid (c : Char) :
    ∀ (mid : Str) (w pre : Str), rtrim (pre ++ mid) ≠ [] →
      (rtrim (pre ++ mid)).all dotOk = true → w ≠ [] → sepValue w ≠ [] →
      (sepValue w).all dotOk = true → sepScan c pre (mid ++ c :: w) ≠ none := by
  intro mid
  induction mid with
  | nil =>
    intro w pre h1 h2 h3 h4 h5
    simp only [List.append_nil] at h1 h2
    show sepScan c pre (c :: w) ≠ none
    unfold sepScan
    rw [if_pos ⟨rfl, h1, h2, h3, h4, h5⟩]
    exact fun hc => Option.noConfusion hc
  | cons a mid' ih =>
    intro w pre h1 h2 h3 h4 h5
    show sepScan c pre (a :: (mid' ++ c :: w)) ≠ none
    unfold sepScan
    split
    · exact fun hc => Option.noConfusion hc
    · have hre : pre ++ a :: mid' = (pre ++ [a]) ++ mid' := by simp
      rw [hre] at h1 h2
      exact ih w (pre ++ [a]) h1 h2 h3 h4 h5


theorem jsonPair_decomp {s : Str} {kv : Str × Str} {rest : Str}
    (h : jsonPair s = some (kv, rest)) :
    ∃ k r2 r3, s = '"' :: (k ++ '"' :: r2) ∧ r2.dropWhile jsonWs = ':' :: r3 ∧
      ∃ r4, r3.dropWhile jsonWs = '"' :: r4 := by
  unfold jsonPair at h
  split at h
  next r =>
    split at h
    next k r2 hstr =>
      split at h
      next r3 hdw =>
        split at h
        next r4 hdw2 =>
          exact ⟨k, r2, r3, by rw [jsonStrGo_decomp hstr], hdw, r4, hdw2⟩
        next => cases h
      next => cases h
    next => cases h
  next => cases h

theorem takeWhile_all (p : Char → Bool) : ∀ (l : Str), (l.takeWhile p).all p = true := by
  intro l
  induction l with
  | nil => rfl
  | cons x xs ih =>
    by_cases hx : p x = true
    · rw [List.takeWhile_cons_of_pos hx, List.all_cons, Bool.and_eq_true]
      exact ⟨hx, ih⟩
    · rw [List.takeWhile_cons_of_neg (by simpa using hx)]
      rfl

theorem all_jsIsWs_of_all_jsonWs {l : Str} (h : l.all jsonWs = true) : l.all jsIsWs = true :=
  List.all_eq_true.mpr (fun x hx => jsonWs_imp_jsIsWs (List.all_eq_true.mp h x hx))

theorem dropWhile_jsonWs_eq_self {line : Str} (hl : ltrim line = line) :
    line.dropWhile jsonWs = line := by
  cases line with
  | nil => rfl
  | cons x xs =>
    have hx : jsIsWs x = false := by
      obtain ⟨x', xs', he, hxf⟩ := ltrim_eq_self_head hl (by simp)
      cases he
      exact hxf
    exact List.dropWhile_cons_of_neg (by simp [not_jsonWs_of_not_jsIsWs hx])

/-- C10: on every single-line input that is a JSON object with at
least one member (hence containing a colon), the colon pattern of
`parseText` matches the line before the JSON pattern is reached, so
the line contributes a spurious entry whose key is the text before the
first colon; when that line is the whole input, the whole-document
JSON merge then adds the real JSON keys while the spurious key
remains.  On the input `(\x7b"Name": "Jane"\x7d)` the text before the
first colon is `(\x7b"Name")` — opening brace, quoted key, closing
quote — and the headers contain both that spurious key and the real
key `Name` (they are exactly the two, in that order). -/
theorem parseText_json_line_spurious_key :
    (∀ (line : Str) (kvs : JsObj), line.all dotOk = true → ltrim line = line →
      rtrim line = line → jsonParse line = some kvs → kvs ≠ [] →
      ∃ k v, lineAction line = LineAction.put k v) ∧
    parseText "\x7b\"Name\": \"Jane\"\x7d" =
      ⟨["\x7b\"Name\"".data, "Name".data],
       [[("\x7b\"Name\"".data, "\"Jane\"\x7d".data), ("Name".data, "Jane".data)]], 1⟩ ∧
    "\x7b\"Name\"".data ∈ (parseText "\x7b\"Name\": \"Jane\"\x7d").headers ∧
    "Name".data ∈ (parseText "\x7b\"Name\": \"Jane\"\x7d").headers := by
  constructor
  · intro line kvs hdot hlt hrt hj hne
    have hdw : line.dropWhile jsonWs = line := dropWhile_jsonWs_eq_self hlt
    unfold jsonParse at hj
    rw [hdw] at hj
    split at hj
    next rest =>
      split at hj
      next tail heq2 =>
        split at hj
        · cases hj; exact absurd rfl hne
        · cases hj
      next r1 hne2 heqr1 =>
        simp only [jsonMembers] at hj
        split at hj
        next hpair => cases hj
        next kvp rest5 hpair =>
          obtain ⟨k, r2, r3, hr1, hdw2, r4, hdw3⟩ := jsonPair_decomp hpair
          have hline : ('{' :: rest : Str) =
              ('{' :: (rest.takeWhile jsonWs ++ '"' :: k ++ '"' :: r2.takeWhile jsonWs)) ++
                ':' :: r3 := by
            have hr2 : r2 = r2.takeWhile jsonWs ++ ':' :: r3 := by
              conv_lhs => rw [← List.takeWhile_append_dropWhile (p := jsonWs) (l := r2)]
              rw [hdw2]
            have hrest2 : rest = rest.takeWhile jsonWs ++ ('"' :: (k ++ '"' :: r2)) := by
              conv_lhs => rw [← List.takeWhile_append_dropWhile (p := jsonWs) (l := rest)]
              rw [hr1]
            conv_lhs => rw [hrest2]
            conv_lhs => rw [hr2]
            simp
          have hmidall : (('{' :: (rest.takeWhile jsonWs ++ '"' :: k ++ '"' ::
              r2.takeWhile jsonWs)) : Str).all dotOk = true ∧ r3.all dotOk = true := by
            rw [hline] at hdot
            simp only [List.all_append, List.all_cons, Bool.and_eq_true] at hdot ⊢
            exact ⟨⟨hdot.1.1, hdot.1.2.1, hdot.1.2.2.1, hdot.1.2.2.2⟩, hdot.2.2⟩
          have hr3ne : r3 ≠ [] := by
            intro he
            rw [he] at hdw3
            cases hdw3
          have hltr3 : List.dropWhile jsIsWs r3 = '"' :: r4 := by
            conv_lhs => rw [show r3 = r3.takeWhile jsonWs ++ '"' :: r4 by
              conv_lhs => rw [← List.takeWhile_append_dropWhile (p := jsonWs) (l := r3), hdw3]]
            rw [dropWhile_append_all (all_jsIsWs_of_all_jsonWs (takeWhile_all jsonWs r3))]
            exact List.dropWhile_cons_of_neg (by decide)
          have hsv : sepValue r3 = '"' :: r4 := by
            unfold sepValue
            rw [show ltrim r3 = '"' :: r4 from hltr3]
          have hsvall : (sepValue r3).all dotOk = true := by
            rw [hsv, ← hltr3]
            exact all_of_sublist (List.dropWhile_sublist jsIsWs) hmidall.2
          have hscan := sepScan_ne_none_of_valid ':'
            ('{' :: (rest.takeWhile jsonWs ++ '"' :: k ++ '"' :: r2.takeWhile jsonWs)) r3 []
            (by
              rw [List.nil_append, rtrim_cons_of_not_ws (by decide)]
              simp)
            (by
              rw [List.nil_append]
              exact rtrim_all hmidall.1)
            hr3ne (by rw [hsv]; simp) hsvall
          rw [← List.nil_append
              (('{' :: (rest.takeWhile jsonWs ++ '"' :: k ++ '"' :: r2.takeWhile jsonWs)) ++
                ':' :: r3), ← hline] at hscan
          have hmatch : reSepMatch ':' ('{' :: rest) ≠ none := hscan
          cases hm : reSepMatch ':' ('{' :: rest) with
          | none => exact absurd hm hmatch
          | some kvp2 =>
            obtain ⟨k2, v2⟩ := kvp2
            obtain ⟨hk2, hv2⟩ := sepScan_some_nonempty hm
            refine ⟨jsTrim k2, jsTrim v2, ?_⟩
            have htr : jsTrim ('{' :: rest : Str) = '{' :: rest := by
              unfold jsTrim
              rw [hrt, hlt]
            simp only [lineAction, htr]
            rw [if_neg (by simp)]
            unfold lineActionColon
            rw [hm]
            show (if k2 ≠ [] ∧ v2 ≠ [] then LineAction.put (jsTrim k2) (jsTrim v2)
                else lineActionEq ('{' :: rest)) = LineAction.put (jsTrim k2) (jsTrim v2)
            rw [if_pos ⟨hk2, hv2⟩]
    next => cases hj
  · decide

/-- C10 witness: the general conjunct applied to the single-line JSON
object with one member. -/
theorem parseText_json_line_spurious_key_witness :
    ∃ k v, lineAction ("\x7b\"Name\": \"Jane\"\x7d").data = LineAction.put k v :=
  parseText_json_line_spurious_key.1 _ [("Name".data, "Jane".data)] (by decide) (by decide)
    (by decide) (by decide) (by decide)

/-! ### Claim theorems: idempotence on the canonical serialization -/

theorem sepScan_cons (c : Char) (pre : Str) (x : Char) (xs : Str) :
    sepScan c pre (x :: xs) =
      if x = c ∧ rtrim pre ≠ [] ∧ (rtrim pre).all dotOk ∧ xs ≠ [] ∧
          sepValue xs ≠ [] ∧ (sepValue xs).all dotOk then
        some (rtrim pre, sepValue xs)
      else sepScan c (pre ++ [x]) xs := rfl

theorem sepScan_no_sep {c : Char} : ∀ (mid pre rest : Str), c ∉ mid →
    sepScan c pre (mid ++ rest) = sepScan c (pre ++ mid) rest := by
  intro mid
  induction mid with
  | nil => intro pre rest _; rw [List.append_nil]; rfl
  | cons a mid' ih =>
    intro pre rest hmem
    have ha : ¬ a = c := fun he => hmem (by simp [he])
    show sepScan c pre (a :: (mid' ++ rest)) = _
    rw [sepScan_cons, if_neg (fun hc => ha hc.1),
      ih (pre ++ [a]) rest (fun hm => hmem (List.mem_cons_of_mem a hm))]
    congr 1
    simp

theorem sepValue_space_cons {v : Str} (hv1 : ltrim v = v) (hv3 : v ≠ []) :
    sepValue (' ' :: v) = v := by
  have hlv : ltrim (' ' :: v) = v := by
    show List.dropWhile jsIsWs (' ' :: v) = v
    rw [List.dropWhile_cons_of_pos (by decide)]
    exact hv1
  unfold sepValue
  rw [hlv]
  cases v with
  | nil => exact absurd rfl hv3
  | cons x xs => rfl

theorem reSepMatch_serialized {k v : Str} (hk2 : rtrim k = k)
    (hk3 : k ≠ []) (hk4 : ':' ∉ k) (hk5 : k.all dotOk = true)
    (hv1 : ltrim v = v) (hv3 : v ≠ []) (hv5 : v.all dotOk = true) :
    reSepMatch ':' (k ++ ':' :: ' ' :: v) = some (k, v) := by
  unfold reSepMatch
  rw [sepScan_no_sep k [] (':' :: ' ' :: v) hk4]
  show sepScan ':' k (':' :: (' ' :: v)) = some (k, v)
  have hsv := sepValue_space_cons hv1 hv3
  unfold sepScan
  rw [if_pos ⟨rfl, by rw [hk2]; exact hk3, by rw [hk2]; exact hk5, by simp,
    by rw [hsv]; exact hv3, by rw [hsv]; exact hv5⟩]
  rw [hk2, hsv]

theorem lineAction_serialized {k v : Str} (hk1 : ltrim k = k) (hk2 : rtrim k = k)
    (hk3 : k ≠ []) (hk4 : ':' ∉ k) (hk5 : k.all dotOk = true)
    (hv1 : ltrim v = v) (hv2 : rtrim v = v) (hv3 : v ≠ []) (hv5 : v.all dotOk = true) :
    lineAction (k ++ ':' :: ' ' :: v) = LineAction.put k v := by
  have hline_rtrim : rtrim (k ++ ':' :: ' ' :: v) = k ++ ':' :: ' ' :: v := by
    have h := rtrim_append_of_rtrim_eq hv2 hv3 (k ++ [':', ' '])
    simpa [List.append_assoc] using h
  have hline_ltrim : ltrim (k ++ ':' :: ' ' :: v) = k ++ ':' :: ' ' :: v := by
    obtain ⟨x, xs, he, hx⟩ := ltrim_eq_self_head hk1 hk3
    rw [he]
    show ltrim (x :: (xs ++ ':' :: ' ' :: v)) = _
    rw [ltrim_cons_of_not_ws hx]
    rfl
  have htr : jsTrim (k ++ ':' :: ' ' :: v) = k ++ ':' :: ' ' :: v := by
    unfold jsTrim
    rw [hline_rtrim, hline_ltrim]
  simp only [lineAction, htr]
  rw [if_neg (by simp)]
  unfold lineActionColon
  rw [reSepMatch_serialized hk2 hk3 hk4 hk5 hv1 hv3 hv5]
  show (if k ≠ [] ∧ v ≠ [] then LineAction.put (jsTrim k) (jsTrim v)
      else lineActionEq (k ++ ':' :: ' ' :: v)) = LineAction.put k v
  rw [if_pos ⟨hk3, hv3⟩]
  have htk : jsTrim k = k := by unfold jsTrim; rw [hk2, hk1]
  have htv : jsTrim v = v := by unfold jsTrim; rw [hv2, hv1]
  rw [htk, htv]

theorem not_newline_mem_of_dotOk {l : Str} (h : l.all dotOk = true) : '\n' ∉ l := by
  intro hm
  have hd := List.all_eq_true.mp h _ hm
  exact absurd hd (by decide)

theorem jsTrim_cons_head {x : Char} (hx : jsIsWs x = false) (l : Str) :
    ∃ ys, jsTrim (x :: l) = x :: ys := by
  unfold jsTrim
  rw [rtrim_cons_of_not_ws hx]
  exact ⟨rtrim l, ltrim_cons_of_not_ws hx _⟩

theorem joinLines_cons_head (x : Char) (l1 : Str) (ls : List Str) :
    ∃ t, joinLines ((x :: l1) :: ls) = x :: t := by
  cases ls with
  | nil => exact ⟨l1, rfl⟩
  | cons l2 ls' => exact ⟨l1 ++ '\n' :: joinLines (l2 :: ls'), rfl⟩

theorem foldl_parseLine_serialized :
    ∀ (fs acc : JsObj), (∀ p ∈ fs, goodEntry p) → (akeys acc ++ akeys fs).Nodup →
      (fs.map (fun q => q.1 ++ ':' :: ' ' :: q.2)).foldl parseLine acc = acc ++ fs := by
  intro fs
  induction fs with
  | nil => intro acc _ _; simp
  | cons p rest ih =>
    intro acc hgood hnd
    have hnotin : p.1 ∉ akeys acc := by
      have hd := (List.nodup_append.mp (by simpa [akeys] using hnd)).2.2
      intro hin
      exact hd hin (List.mem_cons_self p.1 _)
    simp only [List.map_cons, List.foldl_cons]
    have hact : parseLine acc (p.1 ++ ':' :: ' ' :: p.2) = acc ++ [p] := by
      obtain ⟨h1, h2, h3, h4, h5, h6, h7, h8, h9, h10⟩ := hgood p (List.mem_cons_self p rest)
      unfold parseLine
      rw [lineAction_serialized h1 h2 h3 h4 h5 h7 h8 h9 h10]
      show upsert acc p.1 p.2 = acc ++ [p]
      rw [upsert_of_not_mem hnotin p.2]
    rw [hact]
    rw [ih (acc ++ [p]) (fun q hq => hgood q (List.mem_cons_of_mem p hq)) (by
      simp only [akeys, List.map_append, List.map_cons, List.map_nil] at hnd ⊢
      simpa using hnd)]
    simp

theorem parseTextCore_serialized {fs : JsObj} (hgood : ∀ p ∈ fs, goodEntry p)
    (hnd : keysNodup fs) : parseTextCore (serializeFields fs) = fs := by
  cases fs with
  | nil => rfl
  | cons p rest =>
    have hlines : splitOnChar '\n' (serializeFields (p :: rest)) =
        (p :: rest).map (fun q => q.1 ++ ':' :: ' ' :: q.2) := by
      unfold serializeFields
      apply splitOnChar_joinLines (by simp)
      intro l hl
      simp only [List.mem_map] at hl
      obtain ⟨q, hq, he⟩ := hl
      obtain ⟨h1, h2, h3, h4, h5, h6, h7, h8, h9, h10⟩ := hgood q hq
      rw [← he]
      intro hmem
      rcases List.mem_append.mp hmem with hm | hm
      · exact not_newline_mem_of_dotOk h5 hm
      · rcases List.mem_cons.mp hm with hm | hm
        · exact absurd hm (by decide)
        · rcases List.mem_cons.mp hm with hm | hm
          · exact absurd hm (by decide)
          · exact not_newline_mem_of_dotOk h10 hm
    have hfold := foldl_parseLine_serialized (p :: rest) [] hgood
      (by unfold keysNodup at hnd; simpa [akeys] using hnd)
    obtain ⟨h1, h2, h3, h4, h5, h6, h7, h8, h9, h10⟩ := hgood p (List.mem_cons_self p rest)
    obtain ⟨x, xs, hex, hxw⟩ := ltrim_eq_self_head h1 h3
    have hxne : x ≠ '{' := by
      intro he
      apply h6
      rw [hex, he]
      rfl
    obtain ⟨t, ht⟩ : ∃ t, serializeFields (p :: rest) = x :: t := by
      unfold serializeFields
      simp only [List.map_cons]
      rw [hex]
      exact joinLines_cons_head x _ _
    obtain ⟨ys, hys⟩ := jsTrim_cons_head hxw t
    simp only [parseTextCore]
    rw [hlines, hfold, ht, hys]
    rw [if_neg (by
      intro hc
      have hcx := hc.1
      simp only [List.head?_cons, Option.some.injEq] at hcx
      exact hxne hcx)]
    simp

/-- C3 (amended): `parseText` is idempotent on its own canonical
`Key: Value` serialization provided the parsed mapping is serializable
without ambiguity — every key is trimmed, non-empty, free of colons and
line terminators and does not begin with a brace, and every value is
trimmed, non-empty and free of line terminators.  (Without these
provisos the property fails: keys and values introduced by the JSON
merge can contain colons, whitespace or nothing at all, and their
serialization re-parses differently.) -/
theorem parseText_idempotent_amended (text : String)
    (hgood : ∀ p ∈ parseTextCore text.data, goodEntry p) :
    parseText ⟨serializeFields (parseTextCore text.data)⟩ = parseText text := by
  show parseTextTR (serializeFields (parseTextCore text.data)) = parseTextTR text.data
  unfold parseTextTR
  rw [parseTextCore_serialized hgood (keysNodup_parseTextCore text.data)]

/-- C3 witness: a plain two-line `Key: Value` input round-trips. -/
theorem parseText_idempotent_amended_witness :
    parseText ⟨serializeFields (parseTextCore ("Name: Jane Doe\nCity: Rome").data)⟩ =
      parseText "Name: Jane Doe\nCity: Rome" :=
  parseText_idempotent_amended "Name: Jane Doe\nCity: Rome" (by decide)

/-- C3 counterexample: the whole-document JSON merge stores the key
`a:b`, whose serialized line `a:b: c` re-parses with key `a` — so on
the input `(\x7b"a:b": "c"\x7d)` parsing the serialization of the parse
does not reproduce the mapping. -/
theorem parseText_idempotent_counterexample :
    parseText ⟨serializeFields (parseTextCore ("\x7b\"a:b\": \"c\"\x7d").data)⟩ ≠
      parseText "\x7b\"a:b\": \"c\"\x7d" := by
  decide
